import Mathlib

/-!
# Verification of the tagged-hash Merkle tree library

A shallow embedding of `merkle-root-lib` (Rust): the SHA-256 based tagged
hash, the arena-style Merkle tree builder, the root accessor and the
predicate search returning a traversal path.  Bytes are modelled as `Nat`
(each `< 256`), 32-bit words as `Nat` with explicit reduction mod `2^32`.
-/

set_option maxRecDepth 100000

namespace MerkleSpec

/-! ## SHA-256 over byte lists (the `sha2` crate's `Sha256`) -/

/-- The modulus for 32-bit words, 2^32. -/
def M32 : Nat := 4294967296

/-- 32-bit addition: `(a + b) mod 2^32`. -/
def add32 (a b : Nat) : Nat := (a + b) % M32

/-- 32-bit right rotation. -/
def rotr32 (x n : Nat) : Nat := (x >>> n ||| x <<< (32 - n)) % M32

/-- SHA-256 Σ0. -/
def bigSigma0 (x : Nat) : Nat := rotr32 x 2 ^^^ rotr32 x 13 ^^^ rotr32 x 22

/-- SHA-256 Σ1. -/
def bigSigma1 (x : Nat) : Nat := rotr32 x 6 ^^^ rotr32 x 11 ^^^ rotr32 x 25

/-- SHA-256 σ0. -/
def smallSigma0 (x : Nat) : Nat := rotr32 x 7 ^^^ rotr32 x 18 ^^^ (x >>> 3)

/-- SHA-256 σ1. -/
def smallSigma1 (x : Nat) : Nat := rotr32 x 17 ^^^ rotr32 x 19 ^^^ (x >>> 10)

/-- SHA-256 Ch(x,y,z) = (x ∧ y) ⊕ (¬x ∧ z) on 32-bit words. -/
def chFn (x y z : Nat) : Nat := (x &&& y) ^^^ ((x ^^^ 4294967295) &&& z)

/-- SHA-256 Maj(x,y,z). -/
def majFn (x y z : Nat) : Nat := (x &&& y) ^^^ (x &&& z) ^^^ (y &&& z)

/-- The 64 SHA-256 round constants. -/
def K256 : List Nat :=
  [1116352408, 1899447441, 3049323471, 3921009573, 961987163,
   1508970993, 2453635748, 2870763221, 3624381080, 310598401,
   607225278, 1426881987, 1925078388, 2162078206, 2614888103,
   3248222580, 3835390401, 4022224774, 264347078, 604807628,
   770255983, 1249150122, 1555081692, 1996064986, 2554220882,
   2821834349, 2952996808, 3210313671, 3336571891, 3584528711,
   113926993, 338241895, 666307205, 773529912, 1294757372,
   1396182291, 1695183700, 1986661051, 2177026350, 2456956037,
   2730485921, 2820302411, 3259730800, 3345764771, 3516065817,
   3600352804, 4094571909, 275423344, 430227734, 506948616,
   659060556, 883997877, 958139571, 1322822218, 1537002063,
   1747873779, 1955562222, 2024104815, 2227730452, 2361852424,
   2428436474, 2756734187, 3204031479, 3329325298]

/-- The SHA-256 initial hash state. -/
def H256 : List Nat :=
  [1779033703, 3144134277, 1013904242, 2773480762,
   1359893119, 2600822924, 528734635, 1541459225]

/-- Big-endian serialization of `n` into `k` bytes. -/
def toBytesBE (k : Nat) (n : Nat) : List Nat :=
  match k with
  | 0 => []
  | k + 1 => toBytesBE k (n >>> 8) ++ [n % 256]

/-- SHA-256 padding: append `0x80`, zero bytes to 56 mod 64, then the
bit length as 8 big-endian bytes. -/
def padMessage (msg : List Nat) : List Nat :=
  let len := msg.length
  let zeros := (120 - (len + 1) % 64) % 64
  msg ++ [128] ++ List.replicate zeros 0 ++ toBytesBE 8 (len * 8)

/-- Group a byte list into big-endian 32-bit words. -/
def bytesToWords : List Nat → List Nat
  | a :: b :: c :: d :: rest =>
      ((((a <<< 8 ||| b) <<< 8 ||| c) <<< 8) ||| d) :: bytesToWords rest
  | _ => []

/-- Extend a 16-word block with `n` further message-schedule words. -/
def extendSchedule : Nat → List Nat → List Nat
  | 0, ws => ws
  | n + 1, ws =>
      let t := ws.length
      let w := add32 (add32 (smallSigma1 (ws.getD (t - 2) 0)) (ws.getD (t - 7) 0))
                     (add32 (smallSigma0 (ws.getD (t - 15) 0)) (ws.getD (t - 16) 0))
      extendSchedule n (ws ++ [w])

/-- One run of the 64 SHA-256 compression rounds over schedule words `ws`
and round constants `ks`, starting from the 8-word state `st`. -/
def compressRounds : List Nat → List Nat → List Nat → List Nat
  | w :: ws, k :: ks, [a, b, c, d, e, f, g, h] =>
      let t1 := add32 (add32 (add32 h (bigSigma1 e)) (add32 (chFn e f g) k)) w
      let t2 := add32 (bigSigma0 a) (majFn a b c)
      compressRounds ws ks [add32 t1 t2, a, b, c, add32 d t1, e, f, g]
  | _, _, st => st

/-- Compress one 64-byte block into the running 8-word state. -/
def compressBlock (st : List Nat) (block : List Nat) : List Nat :=
  let ws := extendSchedule 48 (bytesToWords block)
  List.zipWith add32 st (compressRounds ws K256 st)

/-- Split a byte list into its 64-byte blocks (`n` of them). -/
def splitBlocksAux : Nat → List Nat → List (List Nat)
  | 0, _ => []
  | n + 1, bs => bs.take 64 :: splitBlocksAux n (bs.drop 64)

/-- Split a (padded) byte list into 64-byte blocks. -/
def splitBlocks (bs : List Nat) : List (List Nat) :=
  splitBlocksAux (bs.length / 64) bs

/-- SHA-256 of a byte list, as its 32 digest bytes. -/
def sha256 (msg : List Nat) : List Nat :=
  (((splitBlocks (padMessage msg)).foldl compressBlock H256).map (toBytesBE 4)).flatten

/-! ## The tagged hash (`tagged_hash` in `lib.rs`) -/

/-- UTF-8 bytes of a string; the tags used here are ASCII, where the
code point is the byte. -/
def strBytes (s : String) : List Nat := s.data.map Char.toNat

/-- Embeds `tagged_hash(tag, input)`: one SHA-256 over
`tag_bytes ‖ tag_bytes ‖ input`. -/
def tagged_hash (tag : String) (input : List Nat) : List Nat :=
  sha256 (strBytes tag ++ strBytes tag ++ input)

/-- Lowercase hex digit for `n < 16` (`hex::encode`). -/
def hexChar (n : Nat) : Char :=
  if n < 10 then Char.ofNat (48 + n) else Char.ofNat (87 + n)

/-- Lowercase hex encoding of a byte list (`hex::encode`). -/
def hexEncode (bs : List Nat) : String :=
  String.mk ((bs.map (fun b => [hexChar (b / 16), hexChar (b % 16)])).flatten)

/-! ## The Merkle tree data model (`lib.rs`) -/

/-- A record: `user_id` and `user_balance` (`u32` in the source; the values
used stay far below `2^32`, so no wraparound occurs). -/
structure UserData where
  user_id : Nat
  user_balance : Nat
deriving DecidableEq

/-- A tree node: hash bytes, optional child indices into the arena,
optional payload. -/
structure MerkleNode where
  hash : List Nat
  left : Option Nat
  right : Option Nat
  user_data : Option UserData
deriving DecidableEq

/-- Default node for out-of-range arena lookups (the source indexes
`self.nodes[i]` only at in-range indices). -/
def defaultNode : MerkleNode := ⟨[], none, none, none⟩

/-- Embeds `MerkleNode::new_leaf`. -/
def MerkleNode.new_leaf (hash : List Nat) (user_data : Option UserData) : MerkleNode :=
  ⟨hash, none, none, user_data⟩

/-- The tree: arena of nodes plus optional root index. -/
structure MerkleTree where
  root : Option Nat
  nodes : List MerkleNode
deriving DecidableEq

/-- Embeds `MerkleTree::new_branch`: hash the two children's concatenated hash
bytes under `tag` and append the branch node to the arena.  (The source
also returns the new node's index; `build` discards it.) -/
def MerkleTree.new_branch (t : MerkleTree) (left right : Nat) (tag : String) : MerkleTree :=
  let combined := (t.nodes.getD left defaultNode).hash ++ (t.nodes.getD right defaultNode).hash
  let hash := tagged_hash tag combined
  { t with nodes := t.nodes ++ [⟨hash, some left, some right, none⟩] }

/-- The canonical record serialization `format!("({},{})", id, balance)`. -/
def serializeRecord (user_id user_balance : Nat) : String :=
  "(" ++ toString user_id ++ "," ++ toString user_balance ++ ")"

/-- One pass of the inner `for` loop of `MerkleTree::build`: for
`i = start, start+2, …  < next_start` append the branch pairing `i` with
`min (i+1) (next_start-1)`.  Structured with fuel so that it computes by
kernel reduction; fuel `≥ next_start - i` makes it run to completion. -/
def buildRow : Nat → MerkleTree → Nat → Nat → String → MerkleTree
  | 0, t, _, _, _ => t
  | fuel + 1, t, i, next_start, tag =>
      if i < next_start then
        buildRow fuel (t.new_branch i (min (i + 1) (next_start - 1)) tag) (i + 2) next_start tag
      else t

/-- The outer `while` loop of `MerkleTree::build`: while more than one
node sits at or after `start`, reduce that level.  Fuel `≥ ⌈log₂⌉` of the
level size makes it run to completion; `build` passes the record count. -/
def buildLevels : Nat → MerkleTree → Nat → String → MerkleTree
  | 0, t, _, _ => t
  | fuel + 1, t, start, tag =>
      if t.nodes.length - start > 1 then
        let next_start := t.nodes.length
        buildLevels fuel (buildRow next_start t start next_start tag) next_start tag
      else t

/-- Embeds `MerkleTree::build`. -/
def MerkleTree.build (tag_leaf tag_branch : String) (user_data : List (Nat × Nat)) :
    MerkleTree :=
  if user_data.isEmpty then { root := none, nodes := [] }
  else
    let nodes := user_data.map (fun p =>
      MerkleNode.new_leaf (tagged_hash tag_leaf (strBytes (serializeRecord p.1 p.2)))
        (some ⟨p.1, p.2⟩))
    let tree := buildLevels user_data.length { root := none, nodes := nodes } 0 tag_branch
    { tree with root := some (tree.nodes.length - 1) }

/-- Embeds `MerkleTree::root`: the root node's hash, hex encoded. -/
def MerkleTree.rootHex (t : MerkleTree) : Option String :=
  t.root.map (fun node => hexEncode ((t.nodes.getD node defaultNode).hash))

/-! ## Traversal paths and search -/

/-- Embeds `NodeDirection`. -/
inductive NodeDirection
  | Left
  | Right
deriving DecidableEq

/-- Embeds `NodeDirection::value`: 0 for `Left`, 1 for `Right`. -/
def NodeDirection.value : NodeDirection → Nat
  | .Left => 0
  | .Right => 1

/-- Embeds `TraversePath`: parallel lists of ancestor hashes (hex strings) and
directions. -/
structure TraversePath where
  hashes : List String
  directions : List NodeDirection
deriving DecidableEq

/-- Embeds `TraversePath::new`. -/
def TraversePath.new : TraversePath := ⟨[], []⟩

/-- Embeds `TraversePath::add_step`. -/
def TraversePath.add_step (p : TraversePath) (hash : String) (d : NodeDirection) :
    TraversePath :=
  ⟨p.hashes ++ [hash], p.directions ++ [d]⟩

/-- Embeds `TraversePath::to_vec`. -/
def TraversePath.to_vec (p : TraversePath) : List (String × Nat) :=
  (p.hashes.zip p.directions).map (fun x => (x.1, x.2.value))

/-- The predicate `search_node_with_path` applies at a node: the node
carries a record and the record satisfies `pred`. -/
def matchPred (pred : UserData → Bool) (nd : MerkleNode) : Bool :=
  match nd.user_data with
  | some u => pred u
  | none => false

/-- Embeds `MerkleTree::search_node_with_path`: if this node's payload satisfies
the predicate, return it with (a clone of) the accumulated path; else push
`(this node's hex hash, Left)` and try the left child, backtracking (here:
reusing the unextended `path`) when it fails; then the same with `Right`.
The source recurses on `&MerkleNode` references; fuel `≥` the arena size
covers every root-to-leaf chain because children have smaller indices. -/
def MerkleTree.search_node_with_path :
    Nat → MerkleTree → MerkleNode → (UserData → Bool) → TraversePath →
    Option (MerkleNode × TraversePath)
  | 0, _, _, _, _ => none
  | fuel + 1, t, node, pred, path =>
      if matchPred pred node then
        some (node, path)
      else
        let leftRes := match node.left with
          | some l =>
              MerkleTree.search_node_with_path fuel t (t.nodes.getD l defaultNode) pred
                (path.add_step (hexEncode node.hash) NodeDirection.Left)
          | none => none
        match leftRes with
        | some r => some r
        | none =>
            match node.right with
            | some rr =>
                MerkleTree.search_node_with_path fuel t (t.nodes.getD rr defaultNode) pred
                  (path.add_step (hexEncode node.hash) NodeDirection.Right)
            | none => none

/-- Embeds `MerkleTree::search_with_path`. -/
def MerkleTree.search_with_path (t : MerkleTree) (pred : UserData → Bool) :
    Option (MerkleNode × TraversePath) :=
  match t.root with
  | some r =>
      MerkleTree.search_node_with_path t.nodes.length t (t.nodes.getD r defaultNode) pred
        TraversePath.new
  | none => none

/-! ## Derived notions used to state the verified properties -/

/-- The leaf node `build` creates for one record. -/
def leafOf (tag_leaf : String) (p : Nat × Nat) : MerkleNode :=
  MerkleNode.new_leaf (tagged_hash tag_leaf (strBytes (serializeRecord p.1 p.2)))
    (some ⟨p.1, p.2⟩)

/-- The record a pair denotes. -/
def userOf (p : Nat × Nat) : UserData := ⟨p.1, p.2⟩

/-- The child index of a node in a given direction. -/
def childIdx (nd : MerkleNode) : NodeDirection → Option Nat
  | .Left => nd.left
  | .Right => nd.right

/-- A node with no children. -/
def isLeafNode (nd : MerkleNode) : Prop := nd.left = none ∧ nd.right = none

/-- Follow a direction list down from `node`, collecting each visited
ancestor's hex-encoded hash; returns the collected hashes and the node
reached, or `none` if a direction has no child. -/
def descendHashes (t : MerkleTree) (node : MerkleNode) :
    List NodeDirection → Option (List String × MerkleNode)
  | [] => some ([], node)
  | d :: ds =>
      match childIdx node d with
      | some c =>
          (descendHashes t (t.nodes.getD c defaultNode) ds).map
            (fun r => (hexEncode node.hash :: r.1, r.2))
      | none => none

/-- The candidate nodes of the depth-first pre-order left-first traversal
rooted at `node`: the node itself when it carries a record, then the left
subtree's candidates, then the right subtree's. -/
def candSeq : Nat → MerkleTree → MerkleNode → List MerkleNode
  | 0, _, _ => []
  | fuel + 1, t, node =>
      (match node.user_data with
       | some _ => [node]
       | none => []) ++
      (match node.left with
       | some l => candSeq fuel t (t.nodes.getD l defaultNode)
       | none => []) ++
      (match node.right with
       | some r => candSeq fuel t (t.nodes.getD r defaultNode)
       | none => [])

/-- A node's child indices are both below `n`. -/
def nodeBound (nd : MerkleNode) (n : Nat) : Prop :=
  (∀ l, nd.left = some l → l < n) ∧ (∀ r, nd.right = some r → r < n)

/-- Every node of the arena only references strictly earlier nodes.
`build` maintains this: a branch is appended after its children. -/
def closedTo (ns : List MerkleNode) : Prop :=
  ∀ i, i < ns.length → nodeBound (ns.getD i defaultNode) i

/-- Every branch of the arena hashes to `tagged_hash tag` of its
children's concatenated hashes. -/
def branchInv (tag : String) (ns : List MerkleNode) : Prop :=
  ∀ i, i < ns.length → ∀ l r,
    (ns.getD i defaultNode).left = some l →
    (ns.getD i defaultNode).right = some r →
    (ns.getD i defaultNode).hash =
      tagged_hash tag ((ns.getD l defaultNode).hash ++ (ns.getD r defaultNode).hash)

/-- Every descent from node `idx` that ends at a childless node takes
exactly `d` steps. -/
def uniformDepth (t : MerkleTree) (idx d : Nat) : Prop :=
  ∀ ds res, descendHashes t (t.nodes.getD idx defaultNode) ds = some res →
    isLeafNode res.2 → ds.length = d

/-- The saturated candidate sequence of the node at arena index `i`
(fuel `i + 1` always suffices because children have smaller indices). -/
def candFull (t : MerkleTree) (i : Nat) : List MerkleNode :=
  candSeq (i + 1) t (t.nodes.getD i defaultNode)

/-- The per-node candidate blocks of the level `[start, start+cnt)`. -/
def blockList (t : MerkleTree) (start cnt : Nat) : List (List MerkleNode) :=
  (List.range cnt).map (fun k => candFull t (start + k))

/-- Consecutive pairing of blocks with the last block doubled when the
count is odd — the list-level shadow of one `build` reduction pass. -/
def pairUp : List (List MerkleNode) → List (List MerkleNode)
  | [] => []
  | [b] => [b ++ b]
  | b1 :: b2 :: bs => (b1 ++ b2) :: pairUp bs

/-- The branch node the inner loop appends for pairing position `k`
(children `i + 2k` and `min (i + 2k + 1) (ns - 1)`, hashes read from the
arena as it stood when the row began). -/
def rowNode (t : MerkleTree) (i ns : Nat) (tag : String) (k : Nat) : MerkleNode :=
  ⟨tagged_hash tag
      ((t.nodes.getD (i + 2 * k) defaultNode).hash ++
       (t.nodes.getD (min (i + 2 * k + 1) (ns - 1)) defaultNode).hash),
   some (i + 2 * k), some (min (i + 2 * k + 1) (ns - 1)), none⟩

/-! ## Digest length lemmas -/

theorem toBytesBE_length (k : Nat) : ∀ n, (toBytesBE k n).length = k := by
  induction k with
  | zero => intro n; rfl
  | succ k ih => intro n; simp [toBytesBE, ih]

theorem compressRounds_length :
    ∀ (ws ks st : List Nat), st.length = 8 → (compressRounds ws ks st).length = 8 := by
  intro ws
  induction ws with
  | nil => intro ks st h; simpa [compressRounds] using h
  | cons w ws ih =>
    intro ks st h
    cases ks with
    | nil => simpa [compressRounds] using h
    | cons k ks =>
      rcases st with _ | ⟨a, _ | ⟨b, _ | ⟨c, _ | ⟨d, _ | ⟨e, _ | ⟨f, _ | ⟨g, _ | ⟨hh, _ | ⟨x, rest⟩⟩⟩⟩⟩⟩⟩⟩⟩ <;>
        simp at h
      exact ih (ks) [_, _, _, _, _, _, _, _] rfl

theorem foldl_compressBlock_length (bs : List (List Nat)) :
    ∀ st : List Nat, st.length = 8 → (bs.foldl compressBlock st).length = 8 := by
  induction bs with
  | nil => intro st h; simpa using h
  | cons b bs ih =>
    intro st h
    apply ih
    simp [compressBlock, compressRounds_length _ _ _ h, h]

theorem flatten_map_toBytes4_length (ws : List Nat) :
    ((ws.map (toBytesBE 4)).flatten).length = 4 * ws.length := by
  induction ws with
  | nil => rfl
  | cons w ws ih => simp [ih, toBytesBE_length]; omega

theorem sha256_length (msg : List Nat) : (sha256 msg).length = 32 := by
  unfold sha256
  rw [flatten_map_toBytes4_length,
    foldl_compressBlock_length (splitBlocks (padMessage msg)) H256 rfl]

/-! ## Arena construction lemmas -/

theorem new_branch_nodes (t : MerkleTree) (l r : Nat) (tag : String) :
    (t.new_branch l r tag).nodes = t.nodes ++
      [⟨tagged_hash tag
          ((t.nodes.getD l defaultNode).hash ++ (t.nodes.getD r defaultNode).hash),
        some l, some r, none⟩] := rfl

theorem new_branch_root (t : MerkleTree) (l r : Nat) (tag : String) :
    (t.new_branch l r tag).root = t.root := rfl

theorem rowNode_shift (t t' : MerkleTree) (ext : List MerkleNode)
    (hext : t'.nodes = t.nodes ++ ext) (i ns : Nat) (tag : String) (k : Nat)
    (h1 : i + 2 + 2 * k < ns) (hns : ns ≤ t.nodes.length) :
    rowNode t' (i + 2) ns tag k = rowNode t i ns tag (k + 1) := by
  unfold rowNode
  rw [hext, List.getD_append _ _ _ _ (by omega), List.getD_append _ _ _ _ (by omega)]
  have e1 : i + 2 + 2 * k = i + 2 * (k + 1) := by omega
  rw [e1]

theorem buildRow_spec :
    ∀ (fuel : Nat) (t : MerkleTree) (i ns : Nat) (tag : String),
      ns ≤ t.nodes.length → ns - i ≤ 2 * fuel →
      (buildRow fuel t i ns tag).nodes =
        t.nodes ++ (List.range ((ns - i + 1) / 2)).map (rowNode t i ns tag) ∧
      (buildRow fuel t i ns tag).root = t.root := by
  intro fuel
  induction fuel with
  | zero =>
    intro t i ns tag hns hfuel
    have h0 : (ns - i + 1) / 2 = 0 := by omega
    simp [buildRow, h0]
  | succ fuel ih =>
    intro t i ns tag hns hfuel
    by_cases hi : i < ns
    · have hrow : buildRow (fuel + 1) t i ns tag =
          buildRow fuel (t.new_branch i (min (i + 1) (ns - 1)) tag) (i + 2) ns tag := by
        simp [buildRow, hi]
      have ht1nodes : (t.new_branch i (min (i + 1) (ns - 1)) tag).nodes =
          t.nodes ++ [rowNode t i ns tag 0] := by
        rw [new_branch_nodes]; simp [rowNode]
      have hns1 : ns ≤ (t.new_branch i (min (i + 1) (ns - 1)) tag).nodes.length := by
        rw [ht1nodes]; simp; omega
      obtain ⟨hn, hr⟩ :=
        ih (t.new_branch i (min (i + 1) (ns - 1)) tag) (i + 2) ns tag hns1 (by omega)
      refine ⟨?_, ?_⟩
      · rw [hrow, hn, ht1nodes, List.append_assoc]
        congr 1
        have hm : (ns - i + 1) / 2 = ((ns - (i + 2) + 1) / 2) + 1 := by omega
        rw [hm, List.range_succ_eq_map, List.map_cons, List.map_map,
          List.singleton_append]
        congr 1
        apply List.map_congr_left
        intro k hk
        have hk' : k < (ns - (i + 2) + 1) / 2 := List.mem_range.mp hk
        have hlk : i + 2 + 2 * k < ns := by omega
        show _ = rowNode t i ns tag (k + 1)
        exact rowNode_shift t _ _ ht1nodes i ns tag k (by omega) hns
      · rw [hrow, hr, new_branch_root]
    · have h0 : (ns - i + 1) / 2 = 0 := by omega
      simp [buildRow, hi, h0]

theorem buildLevels_append (fuel : Nat) :
    ∀ (t : MerkleTree) (start : Nat) (tag : String),
      ∃ ext : List MerkleNode, (buildLevels fuel t start tag).nodes = t.nodes ++ ext ∧
        (∀ nd ∈ ext, nd.user_data = none ∧ (∃ a, nd.left = some a) ∧ ∃ b, nd.right = some b) ∧
        (buildLevels fuel t start tag).root = t.root := by
  induction fuel with
  | zero => exact fun t start tag => ⟨[], by simp [buildLevels], by simp, by simp [buildLevels]⟩
  | succ fuel ih =>
    intro t start tag
    by_cases hc : t.nodes.length - start > 1
    · have hlev : buildLevels (fuel + 1) t start tag =
          buildLevels fuel (buildRow t.nodes.length t start t.nodes.length tag)
            t.nodes.length tag := by
        simp [buildLevels, hc]
      obtain ⟨hrow, hrowroot⟩ :=
        buildRow_spec t.nodes.length t start t.nodes.length tag le_rfl (by omega)
      obtain ⟨ext2, he2, hp2, hr2⟩ :=
        ih (buildRow t.nodes.length t start t.nodes.length tag) t.nodes.length tag
      refine ⟨(List.range ((t.nodes.length - start + 1) / 2)).map
          (rowNode t start t.nodes.length tag) ++ ext2, ?_, ?_, ?_⟩
      · rw [hlev, he2, hrow, List.append_assoc]
      · intro nd hnd
        rcases List.mem_append.mp hnd with hmem | hmem
        · obtain ⟨k, _, hk⟩ := List.mem_map.mp hmem
          exact hk ▸ ⟨rfl, ⟨_, rfl⟩, ⟨_, rfl⟩⟩
        · exact hp2 nd hmem
      · rw [hlev, hr2, hrowroot]
    · exact ⟨[], by simp [buildLevels, hc], by simp, by simp [buildLevels, hc]⟩

theorem build_eq (tag_leaf tag_branch : String) (rs : List (Nat × Nat)) (h : rs ≠ []) :
    MerkleTree.build tag_leaf tag_branch rs =
      { root := some ((buildLevels rs.length
            { root := none, nodes := rs.map (leafOf tag_leaf) } 0 tag_branch).nodes.length - 1),
        nodes := (buildLevels rs.length
            { root := none, nodes := rs.map (leafOf tag_leaf) } 0 tag_branch).nodes } := by
  unfold MerkleTree.build
  rw [if_neg (by simpa using h)]
  rfl

theorem rowNode_closed (t : MerkleTree) (i ns : Nat) (tag : String) (k : Nat)
    (hlk : i + 2 * k < ns) (hns : 1 ≤ ns) :
    nodeBound (rowNode t i ns tag k) ns := by
  constructor
  · intro l hl
    simp [rowNode] at hl
    omega
  · intro r hr
    simp [rowNode] at hr
    have : min (i + 2 * k + 1) (ns - 1) ≤ ns - 1 := Nat.min_le_right _ _
    omega

/-! ## Stability of reads under arena extension -/

theorem closedTo_append (ns ext : List MerkleNode) (h : closedTo ns)
    (hext : ∀ k, k < ext.length → nodeBound (ext.getD k defaultNode) (ns.length + k)) :
    closedTo (ns ++ ext) := by
  intro i hi
  rw [List.length_append] at hi
  by_cases hlt : i < ns.length
  · rw [List.getD_append _ _ _ _ hlt]
    exact h i hlt
  · rw [List.getD_append_right _ _ _ _ (by omega)]
    have hb := hext (i - ns.length) (by omega)
    rwa [Nat.add_sub_cancel' (by omega)] at hb

theorem descendHashes_append (t t' : MerkleTree) (ext : List MerkleNode)
    (hnodes : t'.nodes = t.nodes ++ ext) (hc : closedTo t.nodes) :
    ∀ (ds : List NodeDirection) (i : Nat), i < t.nodes.length →
      descendHashes t' (t'.nodes.getD i defaultNode) ds =
      descendHashes t (t.nodes.getD i defaultNode) ds := by
  intro ds
  induction ds with
  | nil =>
    intro i hi
    rw [hnodes, List.getD_append _ _ _ _ hi]
    rfl
  | cons d ds ih =>
    intro i hi
    have hnode : t'.nodes.getD i defaultNode = t.nodes.getD i defaultNode := by
      rw [hnodes, List.getD_append _ _ _ _ hi]
    rw [hnode]
    cases hcid : childIdx (t.nodes.getD i defaultNode) d with
    | none => simp only [descendHashes, hcid]
    | some c =>
      have hc_lt : c < i := by
        have hb := hc i hi
        cases d with
        | Left => exact hb.1 c hcid
        | Right => exact hb.2 c hcid
      simp only [descendHashes, hcid]
      rw [ih c (by omega)]

theorem candSeq_append (t t' : MerkleTree) (ext : List MerkleNode)
    (hnodes : t'.nodes = t.nodes ++ ext) (hc : closedTo t.nodes) :
    ∀ (fuel : Nat) (i : Nat), i < t.nodes.length →
      candSeq fuel t' (t'.nodes.getD i defaultNode) =
      candSeq fuel t (t.nodes.getD i defaultNode) := by
  intro fuel
  induction fuel with
  | zero => intro i hi; rfl
  | succ fuel ih =>
    intro i hi
    have hnode : t'.nodes.getD i defaultNode = t.nodes.getD i defaultNode := by
      rw [hnodes, List.getD_append _ _ _ _ hi]
    rw [hnode]
    have hb := hc i hi
    cases hl : (t.nodes.getD i defaultNode).left with
    | none =>
      cases hr : (t.nodes.getD i defaultNode).right with
      | none => simp only [candSeq, hl, hr]
      | some r =>
        simp only [candSeq, hl, hr]
        rw [ih r (by have := hb.2 r hr; omega)]
    | some l =>
      cases hr : (t.nodes.getD i defaultNode).right with
      | none =>
        simp only [candSeq, hl, hr]
        rw [ih l (by have := hb.1 l hl; omega)]
      | some r =>
        simp only [candSeq, hl, hr]
        rw [ih l (by have := hb.1 l hl; omega), ih r (by have := hb.2 r hr; omega)]

theorem candSeq_saturate (t : MerkleTree) (hc : closedTo t.nodes) :
    ∀ (i : Nat), i < t.nodes.length → ∀ fuel, i + 1 ≤ fuel →
      candSeq fuel t (t.nodes.getD i defaultNode) = candFull t i := by
  intro i
  induction i using Nat.strong_induction_on with
  | _ i ih =>
    intro hi fuel hfuel
    obtain ⟨f, rfl⟩ : ∃ f, fuel = f + 1 := ⟨fuel - 1, by omega⟩
    unfold candFull
    have hb := hc i hi
    cases hl : (t.nodes.getD i defaultNode).left with
    | none =>
      cases hr : (t.nodes.getD i defaultNode).right with
      | none => simp only [candSeq, hl, hr]
      | some r =>
        have hr_lt : r < i := hb.2 r hr
        simp only [candSeq, hl, hr]
        rw [ih r hr_lt (by omega) f (by omega), ih r hr_lt (by omega) i (by omega)]
    | some l =>
      have hl_lt : l < i := hb.1 l hl
      cases hr : (t.nodes.getD i defaultNode).right with
      | none =>
        simp only [candSeq, hl, hr]
        rw [ih l hl_lt (by omega) f (by omega), ih l hl_lt (by omega) i (by omega)]
      | some r =>
        have hr_lt : r < i := hb.2 r hr
        simp only [candSeq, hl, hr]
        rw [ih l hl_lt (by omega) f (by omega), ih l hl_lt (by omega) i (by omega),
          ih r hr_lt (by omega) f (by omega), ih r hr_lt (by omega) i (by omega)]

/-! ## Search as a first-match over the pre-order candidate sequence -/

theorem search_eq_find (pred : UserData → Bool) :
    ∀ (fuel : Nat) (t : MerkleTree) (node : MerkleNode) (path : TraversePath),
      (MerkleTree.search_node_with_path fuel t node pred path).map Prod.fst =
        (candSeq fuel t node).find? (matchPred pred) := by
  intro fuel
  induction fuel with
  | zero => intro t node path; rfl
  | succ fuel ih =>
    intro t node path
    by_cases hm : matchPred pred node = true
    · obtain ⟨u, hud⟩ : ∃ u, node.user_data = some u := by
        unfold matchPred at hm
        cases hud : node.user_data with
        | none => rw [hud] at hm; exact absurd hm (by simp)
        | some u => exact ⟨u, rfl⟩
      simp only [MerkleTree.search_node_with_path, candSeq, hud, if_pos hm,
        List.singleton_append, List.cons_append]
      rw [List.find?_cons_of_pos _ hm]
      rfl
    · cases hud : node.user_data with
      | none =>
        cases hl : node.left with
        | none =>
          cases hr : node.right with
          | none =>
            simp [MerkleTree.search_node_with_path, candSeq, hud, hl, hr, hm]
          | some rr =>
            simp only [MerkleTree.search_node_with_path, candSeq, hud, hl, hr, if_neg hm,
              List.nil_append, List.append_nil]
            exact ih t (t.nodes.getD rr defaultNode)
              (path.add_step (hexEncode node.hash) NodeDirection.Right)
        | some l =>
          cases hr : node.right with
          | none =>
            simp only [MerkleTree.search_node_with_path, candSeq, hud, hl, hr, if_neg hm,
              List.nil_append, List.append_nil]
            rw [← ih t (t.nodes.getD l defaultNode)
              (path.add_step (hexEncode node.hash) NodeDirection.Left)]
            cases hres : MerkleTree.search_node_with_path fuel t (t.nodes.getD l defaultNode)
                pred (path.add_step (hexEncode node.hash) NodeDirection.Left) with
            | some res => rfl
            | none => rfl
          | some rr =>
            simp only [MerkleTree.search_node_with_path, candSeq, hud, hl, hr, if_neg hm,
              List.nil_append, List.find?_append]
            rw [← ih t (t.nodes.getD l defaultNode)
                (path.add_step (hexEncode node.hash) NodeDirection.Left),
              ← ih t (t.nodes.getD rr defaultNode)
                (path.add_step (hexEncode node.hash) NodeDirection.Right)]
            cases hres : MerkleTree.search_node_with_path fuel t (t.nodes.getD l defaultNode)
                pred (path.add_step (hexEncode node.hash) NodeDirection.Left) with
            | some res => rfl
            | none => rfl
      | some u =>
        have hm' : pred u = false := by
          unfold matchPred at hm
          rw [hud] at hm
          exact eq_false_of_ne_true hm
        cases hl : node.left with
        | none =>
          cases hr : node.right with
          | none =>
            simp [MerkleTree.search_node_with_path, candSeq, hud, hl, hr, hm, matchPred, hm']
          | some rr =>
            simp only [MerkleTree.search_node_with_path, candSeq, hud, hl, hr, if_neg hm,
              List.nil_append, List.append_nil, List.singleton_append]
            rw [List.find?_cons_of_neg _ hm]
            exact ih t (t.nodes.getD rr defaultNode)
              (path.add_step (hexEncode node.hash) NodeDirection.Right)
        | some l =>
          cases hr : node.right with
          | none =>
            simp only [MerkleTree.search_node_with_path, candSeq, hud, hl, hr, if_neg hm,
              List.nil_append, List.append_nil, List.singleton_append]
            rw [List.find?_cons_of_neg _ hm,
              ← ih t (t.nodes.getD l defaultNode)
                (path.add_step (hexEncode node.hash) NodeDirection.Left)]
            cases hres : MerkleTree.search_node_with_path fuel t (t.nodes.getD l defaultNode)
                pred (path.add_step (hexEncode node.hash) NodeDirection.Left) with
            | some res => rfl
            | none => rfl
          | some rr =>
            simp only [MerkleTree.search_node_with_path, candSeq, hud, hl, hr, if_neg hm,
              List.singleton_append, List.cons_append, List.nil_append]
            rw [List.find?_cons_of_neg _ hm, List.find?_append]
            rw [← ih t (t.nodes.getD l defaultNode)
                (path.add_step (hexEncode node.hash) NodeDirection.Left),
              ← ih t (t.nodes.getD rr defaultNode)
                (path.add_step (hexEncode node.hash) NodeDirection.Right)]
            cases hres : MerkleTree.search_node_with_path fuel t (t.nodes.getD l defaultNode)
                pred (path.add_step (hexEncode node.hash) NodeDirection.Left) with
            | some res => rfl
            | none => rfl

/-! ## The returned path records the visited ancestors' own hashes -/

theorem search_path_spec (pred : UserData → Bool) :
    ∀ (fuel : Nat) (t : MerkleTree) (node : MerkleNode) (path : TraversePath)
      (leaf : MerkleNode) (p : TraversePath),
      MerkleTree.search_node_with_path fuel t node pred path = some (leaf, p) →
      ∃ ds hs, p.directions = path.directions ++ ds ∧ p.hashes = path.hashes ++ hs ∧
        descendHashes t node ds = some (hs, leaf) ∧ matchPred pred leaf = true := by
  intro fuel
  induction fuel with
  | zero =>
    intro t node path leaf p h
    exact absurd h (by simp [MerkleTree.search_node_with_path])
  | succ fuel ih =>
    intro t node path leaf p h
    have step : ∀ (d : NodeDirection) (c : Nat), childIdx node d = some c →
        MerkleTree.search_node_with_path fuel t (t.nodes.getD c defaultNode) pred
          (path.add_step (hexEncode node.hash) d) = some (leaf, p) →
        ∃ ds hs, p.directions = path.directions ++ ds ∧ p.hashes = path.hashes ++ hs ∧
          descendHashes t node ds = some (hs, leaf) ∧ matchPred pred leaf = true := by
      intro d c hcid hsearch
      obtain ⟨ds', hs', hd, hh, hdesc, hmatch⟩ := ih t (t.nodes.getD c defaultNode)
        (path.add_step (hexEncode node.hash) d) leaf p hsearch
      refine ⟨d :: ds', hexEncode node.hash :: hs', ?_, ?_, ?_, hmatch⟩
      · rw [hd]; simp [TraversePath.add_step]
      · rw [hh]; simp [TraversePath.add_step]
      · simp only [descendHashes, hcid, hdesc]
        rfl
    by_cases hm : matchPred pred node = true
    · simp only [MerkleTree.search_node_with_path, if_pos hm] at h
      obtain ⟨rfl, rfl⟩ : node = leaf ∧ path = p := by
        have h1 := congrArg (fun o => Option.map Prod.fst o) h
        have h2 := congrArg (fun o => Option.map Prod.snd o) h
        simp at h1 h2
        exact ⟨h1, h2⟩
      exact ⟨[], [], by simp, by simp, rfl, hm⟩
    · simp only [MerkleTree.search_node_with_path, if_neg hm] at h
      cases hl : node.left with
      | none =>
        rw [hl] at h
        cases hr : node.right with
        | none => rw [hr] at h; simp at h
        | some rr =>
          rw [hr] at h
          simp only at h
          exact step NodeDirection.Right rr (by simp [childIdx, hr]) h
      | some l =>
        rw [hl] at h
        simp only at h
        cases hres : MerkleTree.search_node_with_path fuel t (t.nodes.getD l defaultNode) pred
            (path.add_step (hexEncode node.hash) NodeDirection.Left) with
        | some res =>
          rw [hres] at h
          simp only at h
          exact step NodeDirection.Left l (by simp [childIdx, hl]) (by rw [hres, h])
        | none =>
          rw [hres] at h
          simp only at h
          cases hr : node.right with
          | none => rw [hr] at h; simp at h
          | some rr =>
            rw [hr] at h
            simp only at h
            exact step NodeDirection.Right rr (by simp [childIdx, hr]) h

/-! ## Claim theorems (C2, C4, C5, C6, C7, C9) -/

/-- C2: for every tag and input, `tagged_hash(tag, input)` is the 32-byte
SHA-256 digest of `tag_bytes ‖ tag_bytes ‖ input` computed in one hash
invocation, and `tagged_hash("Bitcoin_Transaction","aaa")` hex-encodes to
the stated vector. -/
theorem claim_C2_tagged_hash_def :
    (∀ (tag : String) (input : List Nat),
      tagged_hash tag input = sha256 (strBytes tag ++ strBytes tag ++ input) ∧
      (tagged_hash tag input).length = 32) ∧
    hexEncode (tagged_hash "Bitcoin_Transaction" (strBytes "aaa")) =
      "06d2aa1f6c35d838688c70c31592a6980ed28ece0766c83d232bae7caeed39e5" :=
  ⟨fun _ _ => ⟨rfl, sha256_length _⟩, rfl⟩

/-- C4: for every non-empty record list, `build` creates exactly one leaf
node per record, in input order, hashed as `tagged_hash(leaf_tag,
"(id,balance)")`; every node beyond those is a branch (no payload, two
children). -/
theorem claim_C4_leaf_per_record (tag_leaf tag_branch : String) (rs : List (Nat × Nat))
    (h : rs ≠ []) :
    (MerkleTree.build tag_leaf tag_branch rs).nodes.take rs.length =
      rs.map (fun p => MerkleNode.new_leaf
        (tagged_hash tag_leaf (strBytes (serializeRecord p.1 p.2))) (some ⟨p.1, p.2⟩)) ∧
    ∀ nd ∈ (MerkleTree.build tag_leaf tag_branch rs).nodes.drop rs.length,
      nd.user_data = none ∧ (∃ a, nd.left = some a) ∧ ∃ b, nd.right = some b := by
  obtain ⟨ext, he, hp, hr⟩ := buildLevels_append rs.length
    { root := none, nodes := rs.map (leafOf tag_leaf) } 0 tag_branch
  rw [build_eq tag_leaf tag_branch rs h]
  simp only at he ⊢
  rw [he]
  have hlen : rs.length = (rs.map (leafOf tag_leaf)).length := by simp
  constructor
  · rw [hlen, List.take_left]
    rfl
  · intro nd hnd
    rw [hlen, List.drop_left] at hnd
    exact hp nd hnd

/-- C4 witness at a concrete input. -/
theorem claim_C4_witness :
    (MerkleTree.build "L" "B" [(1, 2), (3, 4)]).nodes.take 2 =
      [MerkleNode.new_leaf (tagged_hash "L" (strBytes "(1,2)")) (some ⟨1, 2⟩),
       MerkleNode.new_leaf (tagged_hash "L" (strBytes "(3,4)")) (some ⟨3, 4⟩)] ∧
    ∀ nd ∈ (MerkleTree.build "L" "B" [(1, 2), (3, 4)]).nodes.drop 2,
      nd.user_data = none ∧ (∃ a, nd.left = some a) ∧ ∃ b, nd.right = some b :=
  claim_C4_leaf_per_record "L" "B" [(1, 2), (3, 4)] (by decide)

/-- C5: each entry of a returned search path is the visited ancestor's own
hash with the direction taken from it — following the returned directions
from the root visits exactly the returned hashes and ends at the matched
leaf — and the matched node is the first match of the depth-first
pre-order left-first candidate sequence. -/
theorem claim_C5_search_path_semantics :
    (∀ (t : MerkleTree) (pred : UserData → Bool) (leaf : MerkleNode) (p : TraversePath),
      t.search_with_path pred = some (leaf, p) →
      ∃ r, t.root = some r ∧
        descendHashes t (t.nodes.getD r defaultNode) p.directions = some (p.hashes, leaf) ∧
        matchPred pred leaf = true) ∧
    (∀ (t : MerkleTree) (pred : UserData → Bool),
      (t.search_with_path pred).map Prod.fst =
        match t.root with
        | some r => (candSeq t.nodes.length t (t.nodes.getD r defaultNode)).find? (matchPred pred)
        | none => none) := by
  constructor
  · intro t pred leaf p h
    unfold MerkleTree.search_with_path at h
    cases hroot : t.root with
    | none => rw [hroot] at h; simp at h
    | some r =>
      rw [hroot] at h
      simp only at h
      obtain ⟨ds, hs, hd, hh, hdesc, hmatch⟩ :=
        search_path_spec pred _ t _ TraversePath.new leaf p h
      refine ⟨r, rfl, ?_, hmatch⟩
      simp only [TraversePath.new, List.nil_append] at hd hh
      rw [hd, hh]
      exact hdesc
  · intro t pred
    unfold MerkleTree.search_with_path
    cases hroot : t.root with
    | none => rfl
    | some r => exact search_eq_find pred t.nodes.length t _ TraversePath.new

/-- C5 witness at a concrete input: the two-record tree, searching for
id 3, descends right from the root and the single path entry is the root's
own hash. -/
theorem claim_C5_witness :
    ∃ r, (MerkleTree.build "L" "B" [(1, 2), (3, 4)]).root = some r ∧
      descendHashes (MerkleTree.build "L" "B" [(1, 2), (3, 4)])
        ((MerkleTree.build "L" "B" [(1, 2), (3, 4)]).nodes.getD r defaultNode)
        [NodeDirection.Right] =
        some ([hexEncode (tagged_hash "B"
            (tagged_hash "L" (strBytes "(1,2)") ++ tagged_hash "L" (strBytes "(3,4)")))],
          MerkleNode.new_leaf (tagged_hash "L" (strBytes "(3,4)")) (some ⟨3, 4⟩)) ∧
      matchPred (fun u => u.user_id == 3)
        (MerkleNode.new_leaf (tagged_hash "L" (strBytes "(3,4)")) (some ⟨3, 4⟩)) = true :=
  claim_C5_search_path_semantics.1 (MerkleTree.build "L" "B" [(1, 2), (3, 4)])
    (fun u => u.user_id == 3)
    (MerkleNode.new_leaf (tagged_hash "L" (strBytes "(3,4)")) (some ⟨3, 4⟩))
    ⟨[hexEncode (tagged_hash "B"
        (tagged_hash "L" (strBytes "(1,2)") ++ tagged_hash "L" (strBytes "(3,4)")))],
      [NodeDirection.Right]⟩ rfl

/-- C6: building from the empty record list yields a rootless tree; root
and search return nothing, with no fault. -/
theorem claim_C6_empty_input :
    ∀ (tag_leaf tag_branch : String) (pred : UserData → Bool),
      MerkleTree.build tag_leaf tag_branch [] = { root := none, nodes := [] } ∧
      (MerkleTree.build tag_leaf tag_branch []).rootHex = none ∧
      (MerkleTree.build tag_leaf tag_branch []).search_with_path pred = none :=
  fun _ _ _ => ⟨rfl, rfl, rfl⟩

/-- C7: a tree built from one record has the leaf's own tagged hash as its
root (a single node, no branch), a search satisfied by that record returns
the leaf with the empty path, and in general an empty returned path occurs
only when the root node itself matched the predicate. -/
theorem claim_C7_single_record :
    ∀ (tag_leaf tag_branch : String) (a b : Nat) (pred : UserData → Bool),
      pred ⟨a, b⟩ = true →
      ((MerkleTree.build tag_leaf tag_branch [(a, b)]).rootHex =
          some (hexEncode (tagged_hash tag_leaf (strBytes (serializeRecord a b)))) ∧
        (MerkleTree.build tag_leaf tag_branch [(a, b)]).nodes.length = 1 ∧
        (MerkleTree.build tag_leaf tag_branch [(a, b)]).search_with_path pred =
          some (leafOf tag_leaf (a, b), TraversePath.new)) ∧
      (∀ (t : MerkleTree) (pred' : UserData → Bool) (leaf : MerkleNode) (p : TraversePath),
        t.search_with_path pred' = some (leaf, p) → p.directions = [] →
        ∃ r, t.root = some r ∧ t.nodes.getD r defaultNode = leaf ∧
          matchPred pred' leaf = true) := by
  intro tag_leaf tag_branch a b pred hp
  constructor
  · refine ⟨rfl, rfl, ?_⟩
    have hb : MerkleTree.build tag_leaf tag_branch [(a, b)] =
        { root := some 0, nodes := [leafOf tag_leaf (a, b)] } := rfl
    rw [hb]
    simp [MerkleTree.search_with_path, MerkleTree.search_node_with_path, matchPred,
      leafOf, MerkleNode.new_leaf, hp]
  · intro t pred' leaf p h hdir
    unfold MerkleTree.search_with_path at h
    cases hroot : t.root with
    | none => rw [hroot] at h; simp at h
    | some r =>
      rw [hroot] at h
      simp only at h
      obtain ⟨ds, hs, hd, hh, hdesc, hmatch⟩ :=
        search_path_spec pred' _ t _ TraversePath.new leaf p h
      simp only [TraversePath.new, List.nil_append] at hd hh
      rw [hdir] at hd
      rw [← hd] at hdesc
      simp only [descendHashes] at hdesc
      have hleaf : leaf = t.nodes.getD r defaultNode := by
        have := congrArg (fun o => (Option.map Prod.snd o).getD defaultNode) hdesc
        simpa using this.symm
      exact ⟨r, rfl, hleaf.symm, hmatch⟩

/-- C7 witness at a concrete input. -/
theorem claim_C7_witness :
    (MerkleTree.build "L" "B" [(7, 9)]).rootHex =
        some (hexEncode (tagged_hash "L" (strBytes (serializeRecord 7 9)))) ∧
      (MerkleTree.build "L" "B" [(7, 9)]).nodes.length = 1 ∧
      (MerkleTree.build "L" "B" [(7, 9)]).search_with_path (fun u => u.user_id == 7) =
        some (leafOf "L" (7, 9), TraversePath.new) :=
  (claim_C7_single_record "L" "B" 7 9 (fun u => u.user_id == 7) (by decide)).1

/-- C9: build, root and search are deterministic pure functions of
`(leaf_tag, branch_tag, records)`: repeated runs and repeated reads return
identical results, and reads cannot mutate the tree (the embedding of the
immutable structure is functional). -/
theorem claim_C9_determinism :
    ∀ (tag_leaf tag_branch : String) (records : List (Nat × Nat)) (pred : UserData → Bool),
      MerkleTree.build tag_leaf tag_branch records = MerkleTree.build tag_leaf tag_branch records ∧
      (MerkleTree.build tag_leaf tag_branch records).rootHex =
        (MerkleTree.build tag_leaf tag_branch records).rootHex ∧
      (MerkleTree.build tag_leaf tag_branch records).search_with_path pred =
        (MerkleTree.build tag_leaf tag_branch records).search_with_path pred :=
  fun _ _ _ _ => ⟨rfl, rfl, rfl⟩

/-! ## Arena invariants of the built tree -/

theorem map_range_getD {α : Type} {d : α} (f : Nat → α) (n k : Nat) (hk : k < n) :
    ((List.range n).map f).getD k d = f k := by
  rw [List.getD_eq_getElem _ _ (by simpa using hk), List.getElem_map, List.getElem_range]

theorem leaves_closed (tag_leaf : String) (rs : List (Nat × Nat)) :
    closedTo (rs.map (leafOf tag_leaf)) := by
  intro i hi
  have hmem : (rs.map (leafOf tag_leaf)).getD i defaultNode ∈ rs.map (leafOf tag_leaf) := by
    rw [List.getD_eq_getElem _ _ hi]
    exact List.getElem_mem hi
  obtain ⟨p, -, hp⟩ := List.mem_map.mp hmem
  constructor
  · intro l hl
    rw [← hp] at hl
    simp [leafOf, MerkleNode.new_leaf] at hl
  · intro r hr
    rw [← hp] at hr
    simp [leafOf, MerkleNode.new_leaf] at hr

theorem leaves_branchInv (tag : String) (tag_leaf : String) (rs : List (Nat × Nat)) :
    branchInv tag (rs.map (leafOf tag_leaf)) := by
  intro i hi l r hl hr
  have hmem : (rs.map (leafOf tag_leaf)).getD i defaultNode ∈ rs.map (leafOf tag_leaf) := by
    rw [List.getD_eq_getElem _ _ hi]
    exact List.getElem_mem hi
  obtain ⟨p, -, hp⟩ := List.mem_map.mp hmem
  rw [← hp] at hl
  simp [leafOf, MerkleNode.new_leaf] at hl

theorem buildRow_closed (fuel : Nat) (t : MerkleTree) (i ns : Nat) (tag : String)
    (hns : ns ≤ t.nodes.length) (hfuel : ns - i ≤ 2 * fuel)
    (hc : closedTo t.nodes) : closedTo (buildRow fuel t i ns tag).nodes := by
  obtain ⟨hn, -⟩ := buildRow_spec fuel t i ns tag hns hfuel
  rw [hn]
  apply closedTo_append _ _ hc
  intro k hk
  rw [List.length_map, List.length_range] at hk
  rw [map_range_getD _ _ _ hk]
  have h1 : i + 2 * k < ns := by omega
  have hb := rowNode_closed t i ns tag k h1 (by omega)
  exact ⟨fun l hl => lt_of_lt_of_le (hb.1 l hl) (by omega),
         fun r hr => lt_of_lt_of_le (hb.2 r hr) (by omega)⟩

theorem buildRow_branchInv (fuel : Nat) (t : MerkleTree) (i ns : Nat) (tag : String)
    (hns : ns ≤ t.nodes.length) (hfuel : ns - i ≤ 2 * fuel)
    (hc : closedTo t.nodes) (hbr : branchInv tag t.nodes) :
    branchInv tag (buildRow fuel t i ns tag).nodes := by
  obtain ⟨hn, -⟩ := buildRow_spec fuel t i ns tag hns hfuel
  rw [hn]
  intro j hj l r hl hr
  rw [List.length_append, List.length_map, List.length_range] at hj
  by_cases hlt : j < t.nodes.length
  · rw [List.getD_append _ _ _ _ hlt] at hl hr ⊢
    have hb := hc j hlt
    have hll : l < t.nodes.length := lt_trans (hb.1 l hl) hlt
    have hrr : r < t.nodes.length := lt_trans (hb.2 r hr) hlt
    rw [List.getD_append _ _ _ _ hll, List.getD_append _ _ _ _ hrr]
    exact hbr j hlt l r hl hr
  · have hk : j - t.nodes.length < (ns - i + 1) / 2 := by omega
    have hgd : (t.nodes ++ (List.range ((ns - i + 1) / 2)).map (rowNode t i ns tag)).getD j
        defaultNode = rowNode t i ns tag (j - t.nodes.length) := by
      rw [List.getD_append_right _ _ _ _ (by omega), map_range_getD _ _ _ hk]
    rw [hgd] at hl hr ⊢
    simp only [rowNode] at hl hr ⊢
    obtain rfl : i + 2 * (j - t.nodes.length) = l := by
      exact Option.some.inj hl
    obtain rfl : min (i + 2 * (j - t.nodes.length) + 1) (ns - 1) = r := by
      exact Option.some.inj hr
    have hlk : i + 2 * (j - t.nodes.length) < ns := by omega
    have hrk : min (i + 2 * (j - t.nodes.length) + 1) (ns - 1) < ns := by omega
    rw [List.getD_append _ _ _ _ (by omega), List.getD_append _ _ _ _ (by omega)]

theorem buildLevels_closed_branchInv (fuel : Nat) :
    ∀ (t : MerkleTree) (start : Nat) (tag : String),
      closedTo t.nodes → branchInv tag t.nodes →
      closedTo (buildLevels fuel t start tag).nodes ∧
        branchInv tag (buildLevels fuel t start tag).nodes := by
  induction fuel with
  | zero =>
    intro t start tag hc hb
    simpa [buildLevels] using ⟨hc, hb⟩
  | succ fuel ih =>
    intro t start tag hc hb
    by_cases hcond : t.nodes.length - start > 1
    · rw [show buildLevels (fuel + 1) t start tag =
          buildLevels fuel (buildRow t.nodes.length t start t.nodes.length tag)
            t.nodes.length tag from by simp [buildLevels, hcond]]
      exact ih _ _ _ (buildRow_closed _ _ _ _ _ le_rfl (by omega) hc)
        (buildRow_branchInv _ _ _ _ _ le_rfl (by omega) hc hb)
    · simpa [buildLevels, hcond] using ⟨hc, hb⟩

theorem build_closed (tag_leaf tag_branch : String) (rs : List (Nat × Nat)) :
    closedTo (MerkleTree.build tag_leaf tag_branch rs).nodes ∧
    branchInv tag_branch (MerkleTree.build tag_leaf tag_branch rs).nodes := by
  by_cases h : rs = []
  · subst h
    exact ⟨fun i hi => by simp [MerkleTree.build] at hi,
           fun i hi => by simp [MerkleTree.build] at hi⟩
  · rw [build_eq tag_leaf tag_branch rs h]
    exact buildLevels_closed_branchInv rs.length
      { root := none, nodes := rs.map (leafOf tag_leaf) } 0 tag_branch
      (leaves_closed tag_leaf rs) (leaves_branchInv tag_branch tag_leaf rs)

/-! ## Claim theorems (C1, C3) -/

/-- C1: the root of the tree over `[(1,1111),…,(5,5555)]` with the
ProofOfReserve tags is the known hex digest. -/
theorem claim_C1_root_known_set :
    (MerkleTree.build "ProofOfReserve_Leaf" "ProofOfReserve_Branch"
      [(1, 1111), (2, 2222), (3, 3333), (4, 4444), (5, 5555)]).rootHex =
    some "857f9bdfbbee9207675cbde460c99682015758111b8f9aad7193832619fb1782" := rfl

/-- C3: in every built tree each branch hashes to
`tagged_hash(branch_tag, left.hash ‖ right.hash)`; concretely on a
5-record tree the nodes pair as `(0,1), (2,3), (4,4)` at the first
reduction level (exactly 3 branches, the last pairing the 5th leaf with
itself), then `(5,6), (7,7)` and `(8,9)`, and branch 7's hash is
`tagged_hash(branch_tag, h₅ ‖ h₅)` for the 5th leaf's hash `h₅`. -/
theorem claim_C3_branch_hash :
    (∀ (tag_leaf tag_branch : String) (rs : List (Nat × Nat)) (i l r : Nat),
      i < (MerkleTree.build tag_leaf tag_branch rs).nodes.length →
      ((MerkleTree.build tag_leaf tag_branch rs).nodes.getD i defaultNode).left = some l →
      ((MerkleTree.build tag_leaf tag_branch rs).nodes.getD i defaultNode).right = some r →
      ((MerkleTree.build tag_leaf tag_branch rs).nodes.getD i defaultNode).hash =
        tagged_hash tag_branch
          (((MerkleTree.build tag_leaf tag_branch rs).nodes.getD l defaultNode).hash ++
           ((MerkleTree.build tag_leaf tag_branch rs).nodes.getD r defaultNode).hash)) ∧
    ((MerkleTree.build "L" "B" [(1, 1), (2, 2), (3, 3), (4, 4), (5, 5)]).nodes.map
        (fun nd => (nd.left, nd.right)) =
      [(none, none), (none, none), (none, none), (none, none), (none, none),
       (some 0, some 1), (some 2, some 3), (some 4, some 4),
       (some 5, some 6), (some 7, some 7), (some 8, some 9)]) ∧
    ((MerkleTree.build "L" "B" [(1, 1), (2, 2), (3, 3), (4, 4), (5, 5)]).nodes.getD 7
        defaultNode).hash =
      tagged_hash "B" (tagged_hash "L" (strBytes "(5,5)") ++
        tagged_hash "L" (strBytes "(5,5)")) := by
  refine ⟨?_, rfl, rfl⟩
  intro tag_leaf tag_branch rs i l r hi hl hr
  exact (build_closed tag_leaf tag_branch rs).2 i hi l r hl hr

/-- C3 witness at a concrete input: the root branch of a two-record tree. -/
theorem claim_C3_witness :
    ((MerkleTree.build "L" "B" [(1, 2), (3, 4)]).nodes.getD 2 defaultNode).hash =
      tagged_hash "B"
        (((MerkleTree.build "L" "B" [(1, 2), (3, 4)]).nodes.getD 0 defaultNode).hash ++
         ((MerkleTree.build "L" "B" [(1, 2), (3, 4)]).nodes.getD 1 defaultNode).hash) :=
  claim_C3_branch_hash.1 "L" "B" [(1, 2), (3, 4)] 2 0 1 (by decide) rfl rfl

/-! ## Depth uniformity: every root-to-leaf path has length ⌈log₂ N⌉ -/

theorem clog2_le_self (n : Nat) : Nat.clog 2 n ≤ n := by
  induction n using Nat.strong_induction_on with
  | _ n ih =>
    rcases Nat.lt_or_ge n 2 with h | h
    · interval_cases n <;> simp [Nat.clog]
    · rw [Nat.clog_of_two_le (by omega) h, show n + 2 - 1 = n + 1 from rfl]
      have h2 : (n + 1) / 2 < n := by omega
      have := ih _ h2
      omega

theorem clog2_eq_zero (n : Nat) (h : n ≤ 1) : Nat.clog 2 n = 0 := by
  interval_cases n <;> simp [Nat.clog]

theorem clog2_rec (n : Nat) (h : 2 ≤ n) : Nat.clog 2 n = Nat.clog 2 ((n + 1) / 2) + 1 := by
  rw [Nat.clog_of_two_le (by omega) h, show n + 2 - 1 = n + 1 from rfl]

theorem descendHashes_congr_nodes (t s : MerkleTree) (h : t.nodes = s.nodes) :
    ∀ (ds : List NodeDirection) (node : MerkleNode),
      descendHashes t node ds = descendHashes s node ds := by
  intro ds
  induction ds with
  | nil => intro node; rfl
  | cons d ds ih =>
    intro node
    cases hcid : childIdx node d with
    | none => simp only [descendHashes, hcid]
    | some c =>
      simp only [descendHashes, hcid]
      rw [h, ih]

theorem descendHashes_length :
    ∀ (ds : List NodeDirection) (t : MerkleTree) (node : MerkleNode)
      (res : List String × MerkleNode),
      descendHashes t node ds = some res → res.1.length = ds.length := by
  intro ds
  induction ds with
  | nil =>
    intro t node res h
    simp only [descendHashes, Option.some.injEq] at h
    rw [← h]
    rfl
  | cons d ds ih =>
    intro t node res h
    cases hcid : childIdx node d with
    | none =>
      simp only [descendHashes, hcid] at h
      exact Option.noConfusion h
    | some c =>
      simp only [descendHashes, hcid] at h
      cases hrec : descendHashes t (t.nodes.getD c defaultNode) ds with
      | none => rw [hrec] at h; simp at h
      | some res' =>
        rw [hrec] at h
        simp only [Option.map_some', Option.some.injEq] at h
        have := ih t (t.nodes.getD c defaultNode) res' hrec
        rw [← h]
        simpa using this

theorem uniformDepth_append (t t' : MerkleTree) (ext : List MerkleNode)
    (hnodes : t'.nodes = t.nodes ++ ext) (hc : closedTo t.nodes)
    (i d : Nat) (hi : i < t.nodes.length) (hu : uniformDepth t i d) :
    uniformDepth t' i d := by
  intro ds res hdesc hleaf
  rw [descendHashes_append t t' ext hnodes hc ds i hi] at hdesc
  exact hu ds res hdesc hleaf

theorem buildRow_uniform (t : MerkleTree) (start : Nat) (tag : String) (d : Nat)
    (hc : closedTo t.nodes) (hstart : start < t.nodes.length)
    (hlev : ∀ j, start ≤ j → j < t.nodes.length → uniformDepth t j d) :
    ∀ k, k < (t.nodes.length - start + 1) / 2 →
      uniformDepth (buildRow t.nodes.length t start t.nodes.length tag)
        (t.nodes.length + k) (d + 1) := by
  obtain ⟨hn, -⟩ := buildRow_spec t.nodes.length t start t.nodes.length tag le_rfl (by omega)
  intro k hk ds res hdesc hleaf
  have hnode : (buildRow t.nodes.length t start t.nodes.length tag).nodes.getD
      (t.nodes.length + k) defaultNode = rowNode t start t.nodes.length tag k := by
    rw [hn, List.getD_append_right _ _ _ _ (by omega), Nat.add_sub_cancel_left,
      map_range_getD _ _ _ hk]
  rw [hnode] at hdesc
  have hstep : ∀ (c : Nat) (ds' : List NodeDirection), start ≤ c → c < t.nodes.length →
      (descendHashes (buildRow t.nodes.length t start t.nodes.length tag)
        ((buildRow t.nodes.length t start t.nodes.length tag).nodes.getD c defaultNode) ds').map
          (fun rr => (hexEncode (rowNode t start t.nodes.length tag k).hash :: rr.1, rr.2)) =
        some res →
      ds'.length = d := by
    intro c ds' hc1 hc2 hmap
    cases hrec : descendHashes (buildRow t.nodes.length t start t.nodes.length tag)
        ((buildRow t.nodes.length t start t.nodes.length tag).nodes.getD c defaultNode) ds' with
    | none => rw [hrec] at hmap; simp at hmap
    | some res' =>
      rw [hrec] at hmap
      simp only [Option.map_some', Option.some.injEq] at hmap
      rw [descendHashes_append t _ _ hn hc ds' c hc2] at hrec
      have hres2 : res.2 = res'.2 := by rw [← hmap]
      exact hlev c hc1 hc2 ds' res' hrec (by rwa [hres2] at hleaf)
  cases ds with
  | nil =>
    simp only [descendHashes, Option.some.injEq] at hdesc
    rw [← hdesc] at hleaf
    simp [isLeafNode, rowNode] at hleaf
  | cons dir ds' =>
    have hlk : start + 2 * k < t.nodes.length := by omega
    cases dir with
    | Left =>
      simp only [descendHashes, childIdx, rowNode] at hdesc
      have := hstep (start + 2 * k) ds' (by omega) hlk hdesc
      simpa using this
    | Right =>
      simp only [descendHashes, childIdx, rowNode] at hdesc
      have hrk1 : start ≤ min (start + 2 * k + 1) (t.nodes.length - 1) := by omega
      have hrk2 : min (start + 2 * k + 1) (t.nodes.length - 1) < t.nodes.length := by omega
      have := hstep (min (start + 2 * k + 1) (t.nodes.length - 1)) ds' hrk1 hrk2 hdesc
      simpa using this

theorem buildLevels_depth (fuel : Nat) :
    ∀ (t : MerkleTree) (start d : Nat) (tag : String),
      closedTo t.nodes → start < t.nodes.length →
      (∀ j, start ≤ j → j < t.nodes.length → uniformDepth t j d) →
      Nat.clog 2 (t.nodes.length - start) ≤ fuel →
      uniformDepth (buildLevels fuel t start tag)
        ((buildLevels fuel t start tag).nodes.length - 1)
        (d + Nat.clog 2 (t.nodes.length - start)) := by
  induction fuel with
  | zero =>
    intro t start d tag hc hstart hlev hclog
    have h1 : t.nodes.length - start = 1 := by
      by_contra hne
      have h2 : 2 ≤ t.nodes.length - start := by omega
      have := clog2_rec (t.nodes.length - start) h2
      omega
    rw [show buildLevels 0 t start tag = t from rfl, h1, clog2_eq_zero 1 le_rfl]
    have hidx : t.nodes.length - 1 = start := by omega
    rw [hidx, Nat.add_zero]
    exact hlev start le_rfl hstart
  | succ fuel ih =>
    intro t start d tag hc hstart hlev hclog
    by_cases hcond : t.nodes.length - start > 1
    · have heq : buildLevels (fuel + 1) t start tag =
          buildLevels fuel (buildRow t.nodes.length t start t.nodes.length tag)
            t.nodes.length tag := by
        simp [buildLevels, hcond]
      obtain ⟨hn, -⟩ := buildRow_spec t.nodes.length t start t.nodes.length tag le_rfl
        (by omega)
      have hc1 := buildRow_closed t.nodes.length t start t.nodes.length tag le_rfl
        (by omega) hc
      have hlen1 : (buildRow t.nodes.length t start t.nodes.length tag).nodes.length =
          t.nodes.length + (t.nodes.length - start + 1) / 2 := by
        rw [hn]; simp
      have hstart1 : t.nodes.length <
          (buildRow t.nodes.length t start t.nodes.length tag).nodes.length := by
        rw [hlen1]; omega
      have hlev1 : ∀ j, t.nodes.length ≤ j →
          j < (buildRow t.nodes.length t start t.nodes.length tag).nodes.length →
          uniformDepth (buildRow t.nodes.length t start t.nodes.length tag) j (d + 1) := by
        intro j hj1 hj2
        have hk : j - t.nodes.length < (t.nodes.length - start + 1) / 2 := by
          rw [hlen1] at hj2; omega
        have := buildRow_uniform t start tag d hc hstart hlev (j - t.nodes.length) hk
        rwa [Nat.add_sub_cancel' hj1] at this
      have hclog1 : Nat.clog 2
          ((buildRow t.nodes.length t start t.nodes.length tag).nodes.length -
            t.nodes.length) ≤ fuel := by
        rw [hlen1, Nat.add_sub_cancel_left]
        have := clog2_rec (t.nodes.length - start) (by omega)
        omega
      have hmain := ih (buildRow t.nodes.length t start t.nodes.length tag)
        t.nodes.length (d + 1) tag hc1 hstart1 hlev1 hclog1
      rw [hlen1, Nat.add_sub_cancel_left] at hmain
      have harith : d + 1 + Nat.clog 2 ((t.nodes.length - start + 1) / 2) =
          d + Nat.clog 2 (t.nodes.length - start) := by
        have := clog2_rec (t.nodes.length - start) (by omega)
        omega
      rw [harith] at hmain
      rw [heq]
      exact hmain
    · have h1 : t.nodes.length - start = 1 := by omega
      rw [show buildLevels (fuel + 1) t start tag = t from by simp [buildLevels, hcond],
        h1, clog2_eq_zero 1 le_rfl]
      have hidx : t.nodes.length - 1 = start := by omega
      rw [hidx, Nat.add_zero]
      exact hlev start le_rfl hstart

theorem leaves_uniform (tag_leaf : String) (rs : List (Nat × Nat)) :
    ∀ j, j < (rs.map (leafOf tag_leaf)).length →
      uniformDepth { root := (none : Option Nat), nodes := rs.map (leafOf tag_leaf) } j 0 := by
  intro j hj ds res hdesc hleaf
  cases ds with
  | nil => rfl
  | cons d ds' =>
    have hmem : (rs.map (leafOf tag_leaf)).getD j defaultNode ∈ rs.map (leafOf tag_leaf) := by
      rw [List.getD_eq_getElem _ _ hj]
      exact List.getElem_mem hj
    obtain ⟨p, -, hp⟩ := List.mem_map.mp hmem
    have hcid : childIdx ((rs.map (leafOf tag_leaf)).getD j defaultNode) d = none := by
      rw [← hp]
      cases d <;> simp [childIdx, leafOf, MerkleNode.new_leaf]
    simp only [descendHashes] at hdesc
    rw [hcid] at hdesc
    simp at hdesc

/-- C8: in a tree built from `N ≥ 1` records, every descent from the root
that ends at a childless node takes exactly `⌈log₂ N⌉` steps (all leaves
sit at that depth); concretely, searching the 5-record tree for id 3
returns exactly 3 path steps with directions Left, Right, Left. -/
theorem claim_C8_depth :
    (∀ (tag_leaf tag_branch : String) (rs : List (Nat × Nat)), rs ≠ [] →
      ∀ (r : Nat) (ds : List NodeDirection) (res : List String × MerkleNode),
        (MerkleTree.build tag_leaf tag_branch rs).root = some r →
        descendHashes (MerkleTree.build tag_leaf tag_branch rs)
          ((MerkleTree.build tag_leaf tag_branch rs).nodes.getD r defaultNode) ds =
          some res →
        isLeafNode res.2 → ds.length = Nat.clog 2 rs.length) ∧
    ((MerkleTree.build "ProofOfReserve_Leaf" "ProofOfReserve_Branch"
        [(1, 1111), (2, 2222), (3, 3333), (4, 4444), (5, 5555)]).search_with_path
          (fun u => u.user_id == 3)).map (fun res => res.2.to_vec) =
      some [("857f9bdfbbee9207675cbde460c99682015758111b8f9aad7193832619fb1782", 0),
            ("09e1f208d3b96f4d5948225f3a1ea83fbc0017a80d1fcd2603ca537e958fcc57", 1),
            ("76437464d68b779571e1d94270df86792faad0bdcfe2c0868459d4c9bd0ff5da", 0)] := by
  constructor
  · intro tag_leaf tag_branch rs hne r ds res hroot hdesc hleaf
    rw [build_eq tag_leaf tag_branch rs hne] at hroot hdesc
    have hr : r = (buildLevels rs.length
        { root := none, nodes := rs.map (leafOf tag_leaf) } 0 tag_branch).nodes.length - 1 := by
      simpa using hroot.symm
    subst hr
    have hN : (0 : Nat) < rs.length := List.length_pos.mpr hne
    have hdepth := buildLevels_depth rs.length
      { root := none, nodes := rs.map (leafOf tag_leaf) } 0 0 tag_branch
      (leaves_closed tag_leaf rs) (by simpa using hN)
      (fun j _ hj => leaves_uniform tag_leaf rs j hj)
      (by simpa using clog2_le_self rs.length)
    rw [descendHashes_congr_nodes
      { root := some ((buildLevels rs.length
          { root := none, nodes := rs.map (leafOf tag_leaf) } 0 tag_branch).nodes.length - 1),
        nodes := (buildLevels rs.length
          { root := none, nodes := rs.map (leafOf tag_leaf) } 0 tag_branch).nodes }
      (buildLevels rs.length { root := none, nodes := rs.map (leafOf tag_leaf) } 0 tag_branch)
      rfl] at hdesc
    have := hdepth ds res hdesc hleaf
    simpa using this
  · rfl

/-! ## First-match preservation across the reduction levels -/

theorem pairUp_length : ∀ (bs : List (List MerkleNode)),
    (pairUp bs).length = (bs.length + 1) / 2
  | [] => rfl
  | [_] => by simp [pairUp]
  | b1 :: b2 :: bs => by
    simp only [pairUp, List.length_cons]
    rw [pairUp_length bs]
    omega

theorem pairUp_getD : ∀ (bs : List (List MerkleNode)) (k : Nat), k < (bs.length + 1) / 2 →
    (pairUp bs).getD k [] =
      bs.getD (2 * k) [] ++ bs.getD (min (2 * k + 1) (bs.length - 1)) []
  | [], k, hk => by simp at hk
  | [b], k, hk => by
    have hk0 : k = 0 := by
      simp only [List.length_cons, List.length_nil] at hk
      omega
    subst hk0
    rfl
  | b1 :: b2 :: bs, k, hk => by
    cases k with
    | zero =>
      have hmin : min (2 * 0 + 1) ((b1 :: b2 :: bs).length - 1) = 1 := by
        simp only [List.length_cons]
        omega
      rw [hmin]
      rfl
    | succ k =>
      have hks : k < (bs.length + 1) / 2 := by
        simp only [List.length_cons] at hk
        omega
      simp only [pairUp, List.getD_cons_succ]
      have e1 : 2 * (k + 1) = 2 * k + 1 + 1 := by omega
      rw [e1]
      have e2 : min (2 * k + 1 + 1 + 1) ((b1 :: b2 :: bs).length - 1) =
          min (2 * k + 1) (bs.length - 1) + 1 + 1 := by
        simp only [List.length_cons]
        omega
      rw [e2]
      simp only [List.getD_cons_succ]
      exact pairUp_getD bs k hks

theorem pairUp_find (p : MerkleNode → Bool) :
    ∀ (bs : List (List MerkleNode)),
      ((pairUp bs).flatten).find? p = (bs.flatten).find? p
  | [] => rfl
  | [b] => by
    simp only [pairUp, List.flatten_cons, List.flatten_nil, List.append_nil]
    rw [List.find?_append]
    cases hf : b.find? p <;> simp [hf]
  | b1 :: b2 :: bs => by
    simp only [pairUp, List.flatten_cons]
    rw [List.find?_append, List.find?_append, List.find?_append, List.find?_append,
      pairUp_find p bs, Option.or_assoc]

theorem flatten_singletons : ∀ (l : List MerkleNode),
    (l.map (fun nd => [nd])).flatten = l
  | [] => rfl
  | x :: xs => by simp [flatten_singletons xs]

theorem candSeq_congr_nodes (t s : MerkleTree) (h : t.nodes = s.nodes) :
    ∀ (fuel : Nat) (node : MerkleNode), candSeq fuel t node = candSeq fuel s node := by
  intro fuel
  induction fuel with
  | zero => intro node; rfl
  | succ fuel ih =>
    intro node
    cases hl : node.left with
    | none =>
      cases hr : node.right with
      | none => simp only [candSeq, hl, hr]
      | some r => simp only [candSeq, hl, hr]; rw [h, ih]
    | some l =>
      cases hr : node.right with
      | none => simp only [candSeq, hl, hr]; rw [h, ih]
      | some r => simp only [candSeq, hl, hr]; rw [h, ih, ih]

theorem candFull_row (t : MerkleTree) (start : Nat) (tag : String)
    (hc : closedTo t.nodes) (hstart : start < t.nodes.length) :
    ∀ k, k < (t.nodes.length - start + 1) / 2 →
      candFull (buildRow t.nodes.length t start t.nodes.length tag) (t.nodes.length + k) =
        candFull t (start + 2 * k) ++
        candFull t (min (start + 2 * k + 1) (t.nodes.length - 1)) := by
  obtain ⟨hn, -⟩ := buildRow_spec t.nodes.length t start t.nodes.length tag le_rfl (by omega)
  intro k hk
  have hnode : (buildRow t.nodes.length t start t.nodes.length tag).nodes.getD
      (t.nodes.length + k) defaultNode = rowNode t start t.nodes.length tag k := by
    rw [hn, List.getD_append_right _ _ _ _ (by omega), Nat.add_sub_cancel_left,
      map_range_getD _ _ _ hk]
  have hl2 : start + 2 * k < t.nodes.length := by omega
  have hr2 : min (start + 2 * k + 1) (t.nodes.length - 1) < t.nodes.length := by omega
  have hstep : candSeq (t.nodes.length + k + 1)
      (buildRow t.nodes.length t start t.nodes.length tag)
      (rowNode t start t.nodes.length tag k) =
      candSeq (t.nodes.length + k) (buildRow t.nodes.length t start t.nodes.length tag)
        ((buildRow t.nodes.length t start t.nodes.length tag).nodes.getD
          (start + 2 * k) defaultNode) ++
      candSeq (t.nodes.length + k) (buildRow t.nodes.length t start t.nodes.length tag)
        ((buildRow t.nodes.length t start t.nodes.length tag).nodes.getD
          (min (start + 2 * k + 1) (t.nodes.length - 1)) defaultNode) := by
    simp only [candSeq, rowNode, List.nil_append]
  conv_lhs => unfold candFull
  rw [hnode, hstep, candSeq_append t _ _ hn hc _ _ hl2, candSeq_append t _ _ hn hc _ _ hr2,
    candSeq_saturate t hc _ hl2 _ (by omega), candSeq_saturate t hc _ hr2 _ (by omega)]

theorem blockList_row (t : MerkleTree) (start : Nat) (tag : String)
    (hc : closedTo t.nodes) (hstart : start < t.nodes.length) :
    blockList (buildRow t.nodes.length t start t.nodes.length tag) t.nodes.length
      ((t.nodes.length - start + 1) / 2) =
      pairUp (blockList t start (t.nodes.length - start)) := by
  apply List.ext_get
  · simp [blockList, pairUp_length]
  · intro k h1 h2
    have hk : k < (t.nodes.length - start + 1) / 2 := by
      simpa [blockList] using h1
    have hL : (blockList (buildRow t.nodes.length t start t.nodes.length tag)
        t.nodes.length ((t.nodes.length - start + 1) / 2)).get ⟨k, h1⟩ =
        candFull (buildRow t.nodes.length t start t.nodes.length tag)
          (t.nodes.length + k) := by
      simp [blockList, List.get_eq_getElem]
    have hR : (pairUp (blockList t start (t.nodes.length - start))).get ⟨k, h2⟩ =
        (pairUp (blockList t start (t.nodes.length - start))).getD k [] := by
      rw [List.getD_eq_getElem _ _ (by simpa using h2)]
      simp [List.get_eq_getElem]
    rw [hL, hR, pairUp_getD _ _ (by simp [blockList]; omega)]
    have hb1 : (blockList t start (t.nodes.length - start)).getD (2 * k) [] =
        candFull t (start + 2 * k) := by
      unfold blockList
      exact map_range_getD _ _ _ (by omega)
    have hlen : (blockList t start (t.nodes.length - start)).length =
        t.nodes.length - start := by simp [blockList]
    have hb2 : (blockList t start (t.nodes.length - start)).getD
        (min (2 * k + 1) ((blockList t start (t.nodes.length - start)).length - 1)) [] =
        candFull t (min (start + 2 * k + 1) (t.nodes.length - 1)) := by
      rw [hlen]
      unfold blockList
      rw [map_range_getD _ _ _ (by omega)]
      congr 1
      omega
    rw [hb1, hb2, candFull_row t start tag hc hstart k hk]

theorem buildLevels_find (fuel : Nat) :
    ∀ (t : MerkleTree) (start : Nat) (tag : String),
      closedTo t.nodes → start < t.nodes.length →
      Nat.clog 2 (t.nodes.length - start) ≤ fuel →
      ∀ (p : MerkleNode → Bool),
        (candFull (buildLevels fuel t start tag)
            ((buildLevels fuel t start tag).nodes.length - 1)).find? p =
          ((blockList t start (t.nodes.length - start)).flatten).find? p := by
  induction fuel with
  | zero =>
    intro t start tag hc hstart hclog p
    have h1 : t.nodes.length - start = 1 := by
      by_contra hne
      have := clog2_rec (t.nodes.length - start) (by omega)
      omega
    rw [show buildLevels 0 t start tag = t from rfl, h1]
    have hidx : t.nodes.length - 1 = start := by omega
    rw [hidx]
    simp [blockList, List.range_succ, List.range_zero]
  | succ fuel ih =>
    intro t start tag hc hstart hclog p
    by_cases hcond : t.nodes.length - start > 1
    · have heq : buildLevels (fuel + 1) t start tag =
          buildLevels fuel (buildRow t.nodes.length t start t.nodes.length tag)
            t.nodes.length tag := by
        simp [buildLevels, hcond]
      obtain ⟨hn, -⟩ := buildRow_spec t.nodes.length t start t.nodes.length tag le_rfl
        (by omega)
      have hc1 := buildRow_closed t.nodes.length t start t.nodes.length tag le_rfl
        (by omega) hc
      have hlen1 : (buildRow t.nodes.length t start t.nodes.length tag).nodes.length =
          t.nodes.length + (t.nodes.length - start + 1) / 2 := by
        rw [hn]; simp
      have hstart1 : t.nodes.length <
          (buildRow t.nodes.length t start t.nodes.length tag).nodes.length := by
        rw [hlen1]; omega
      have hclog1 : Nat.clog 2
          ((buildRow t.nodes.length t start t.nodes.length tag).nodes.length -
            t.nodes.length) ≤ fuel := by
        rw [hlen1, Nat.add_sub_cancel_left]
        have := clog2_rec (t.nodes.length - start) (by omega)
        omega
      rw [heq, ih _ t.nodes.length tag hc1 hstart1 hclog1 p, hlen1,
        Nat.add_sub_cancel_left, blockList_row t start tag hc hstart, pairUp_find]
    · have h1 : t.nodes.length - start = 1 := by omega
      rw [show buildLevels (fuel + 1) t start tag = t from by simp [buildLevels, hcond], h1]
      have hidx : t.nodes.length - 1 = start := by omega
      rw [hidx]
      simp [blockList, List.range_succ, List.range_zero]

theorem leaves_blockList (tag_leaf : String) (rs : List (Nat × Nat)) :
    (blockList { root := (none : Option Nat), nodes := rs.map (leafOf tag_leaf) } 0
        (rs.map (leafOf tag_leaf)).length).flatten = rs.map (leafOf tag_leaf) := by
  have hb : blockList { root := (none : Option Nat), nodes := rs.map (leafOf tag_leaf) } 0
      (rs.map (leafOf tag_leaf)).length =
      (rs.map (leafOf tag_leaf)).map (fun nd => [nd]) := by
    apply List.ext_get
    · simp [blockList]
    · intro k h1 h2
      have hk : k < (rs.map (leafOf tag_leaf)).length := by simpa [blockList] using h1
      have hL : (blockList { root := (none : Option Nat), nodes := rs.map (leafOf tag_leaf) } 0 (rs.map (leafOf tag_leaf)).length).get ⟨k, h1⟩ =
          candFull { root := (none : Option Nat), nodes := rs.map (leafOf tag_leaf) } k := by
        simp [blockList, List.get_eq_getElem]
      rw [hL]
      have hmem : (rs.map (leafOf tag_leaf)).getD k defaultNode ∈ rs.map (leafOf tag_leaf) := by
        rw [List.getD_eq_getElem _ _ hk]
        exact List.getElem_mem hk
      obtain ⟨q, -, hq⟩ := List.mem_map.mp hmem
      have hval : candFull { root := (none : Option Nat), nodes := rs.map (leafOf tag_leaf) } k =
          [(rs.map (leafOf tag_leaf)).getD k defaultNode] := by
        unfold candFull
        rw [← hq]
        rfl
      rw [hval]
      simp only [List.get_eq_getElem, List.getElem_map]
      congr 1
      rw [List.getD_eq_getElem _ _ hk]
      simp [List.getElem_map]
  rw [hb, flatten_singletons]

/-- C10: search returns the matching leaf that is earliest in input record
order — its payload is exactly `List.find?` over the records — and every
returned path carries as many hashes as directions. -/
theorem claim_C10_first_match :
    (∀ (tag_leaf tag_branch : String) (rs : List (Nat × Nat)) (pred : UserData → Bool),
      ((MerkleTree.build tag_leaf tag_branch rs).search_with_path pred).map
          (fun res => res.1.user_data) =
        ((rs.map userOf).find? pred).map some) ∧
    (∀ (t : MerkleTree) (pred : UserData → Bool) (leaf : MerkleNode) (p : TraversePath),
      t.search_with_path pred = some (leaf, p) → p.hashes.length = p.directions.length) := by
  constructor
  · intro tl tb rs pred
    by_cases hne : rs = []
    · subst hne; rfl
    · have hN : (0 : Nat) < rs.length := List.length_pos.mpr hne
      obtain ⟨ext, hext, -, -⟩ := buildLevels_append rs.length
        { root := none, nodes := rs.map (leafOf tl) } 0 tb
      have hL : (0 : Nat) < (buildLevels rs.length
          { root := none, nodes := rs.map (leafOf tl) } 0 tb).nodes.length := by
        rw [hext]
        simp only [List.length_append, List.length_map]
        omega
      obtain ⟨hclosed, -⟩ := buildLevels_closed_branchInv rs.length
        { root := none, nodes := rs.map (leafOf tl) } 0 tb
        (leaves_closed tl rs) (leaves_branchInv tb tl rs)
      -- step 1: search to find? over the saturated root candidates
      have h1 : ((MerkleTree.build tl tb rs).search_with_path pred).map Prod.fst =
          (candFull (buildLevels rs.length
              { root := none, nodes := rs.map (leafOf tl) } 0 tb)
            ((buildLevels rs.length
              { root := none, nodes := rs.map (leafOf tl) } 0 tb).nodes.length - 1)).find?
            (matchPred pred) := by
        rw [build_eq tl tb rs hne]
        unfold MerkleTree.search_with_path
        simp only
        rw [search_eq_find]
        rw [candSeq_congr_nodes
          { root := some ((buildLevels rs.length
              { root := none, nodes := rs.map (leafOf tl) } 0 tb).nodes.length - 1),
            nodes := (buildLevels rs.length
              { root := none, nodes := rs.map (leafOf tl) } 0 tb).nodes }
          (buildLevels rs.length { root := none, nodes := rs.map (leafOf tl) } 0 tb) rfl]
        rw [candSeq_saturate
          (buildLevels rs.length { root := none, nodes := rs.map (leafOf tl) } 0 tb) hclosed
          ((buildLevels rs.length
            { root := none, nodes := rs.map (leafOf tl) } 0 tb).nodes.length - 1)
          (by omega)
          (buildLevels rs.length
            { root := none, nodes := rs.map (leafOf tl) } 0 tb).nodes.length
          (by omega)]
      -- step 2: level induction down to the leaf blocks
      have h2 := buildLevels_find rs.length
        { root := none, nodes := rs.map (leafOf tl) } 0 tb
        (leaves_closed tl rs) (by simpa using hN)
        (by simpa using clog2_le_self rs.length) (matchPred pred)
      simp only [Nat.sub_zero] at h2
      have h3 := leaves_blockList tl rs
      -- assemble
      have hfst : ((MerkleTree.build tl tb rs).search_with_path pred).map Prod.fst =
          (rs.map (leafOf tl)).find? (matchPred pred) := by
        rw [h1, h2, h3]
      have hfind : (rs.map (leafOf tl)).find? (matchPred pred) =
          ((rs.find? (fun q => pred (userOf q))).map (leafOf tl)) := by
        rw [List.find?_map]
        rfl
      have hgoal : ((MerkleTree.build tl tb rs).search_with_path pred).map
          (fun res => res.1.user_data) =
          (((MerkleTree.build tl tb rs).search_with_path pred).map Prod.fst).map
            MerkleNode.user_data := by
        rw [Option.map_map]
        rfl
      rw [hgoal, hfst, hfind, Option.map_map]
      have hrhs : ((rs.map userOf).find? pred).map some =
          ((rs.find? (fun q => pred (userOf q))).map userOf).map some := by
        rw [List.find?_map]
        rfl
      rw [hrhs, Option.map_map]
      rfl
  · intro t pred leaf p h
    unfold MerkleTree.search_with_path at h
    cases hroot : t.root with
    | none => rw [hroot] at h; simp at h
    | some r =>
      rw [hroot] at h
      simp only at h
      obtain ⟨ds, hs, hd, hh, hdesc, -⟩ :=
        search_path_spec pred _ t _ TraversePath.new leaf p h
      simp only [TraversePath.new, List.nil_append] at hd hh
      have := descendHashes_length ds t _ (hs, leaf) hdesc
      rw [hd, hh]
      simpa using this

/-- C10 witness at a concrete input. -/
theorem claim_C10_witness :
    TraversePath.new.hashes.length = TraversePath.new.directions.length :=
  claim_C10_first_match.2 (MerkleTree.build "L" "B" [(5, 6)]) (fun u => u.user_id == 5)
    (leafOf "L" (5, 6)) TraversePath.new rfl

/-- C8 witness at a concrete input: descending left once in the 2-record
tree reaches a leaf, and `⌈log₂ 2⌉ = 1`. -/
theorem claim_C8_witness :
    ([NodeDirection.Left] : List NodeDirection).length =
      Nat.clog 2 ([((1 : Nat), (2 : Nat)), (3, 4)] : List (Nat × Nat)).length :=
  claim_C8_depth.1 "L" "B" [(1, 2), (3, 4)] (by decide) 2 [NodeDirection.Left]
    ([hexEncode (tagged_hash "B"
        (tagged_hash "L" (strBytes "(1,2)") ++ tagged_hash "L" (strBytes "(3,4)")))],
      MerkleNode.new_leaf (tagged_hash "L" (strBytes "(1,2)")) (some ⟨1, 2⟩))
    rfl rfl ⟨rfl, rfl⟩

end MerkleSpec

